import Mathlib

/-!
Verification development for the `bcmr` file-operations tool.

The Rust sources are shallowly embedded: pure decision logic becomes Lean
functions, the effectful engines become functions producing explicit traces
of filesystem actions, and the filesystem itself is a list of files (paths
rendered as component lists, contents as byte lists).  Machine integers in
the sources (`u64` sizes, offsets) are modelled as `Nat`; none of the
embedded arithmetic can overflow in the source within the modelled domain.
SHA-256 (`core/checksum.rs`) is modelled as an injective digest, i.e. the
digest of a byte sequence is the sequence itself; `hash_prefix` is the
digest of the first `limit` bytes, exactly as the streaming code computes.
A compiled exclude regex is modelled by its matching predicate on the
rendered path string.
-/

namespace Bcmr

/-- File contents and digests are byte lists. -/
abbrev Bytes := List Nat

/-- A filesystem path, as its components. -/
abbrev FsPath := List String

/-- The platform-native string rendering of a path
(`Path::to_string_lossy`). -/
def renderPath (p : FsPath) : String := String.intercalate "/" p

/-- `traversal::is_excluded` (src/core/traversal.rs 4-7): a path is excluded
iff its string form matches one of the compiled exclude regexes.  A regex is
modelled by its matching predicate. -/
def is_excluded (path : String) (excludes : List (String → Bool)) : Bool :=
  excludes.any (fun re => re path)

/-- `checksum::calculate_hash` (src/core/checksum.rs 7-23): the full-content
SHA-256 digest, modelled as injective, hence the content itself. -/
def calculate_hash (content : Bytes) : Bytes := content

/-- `checksum::calculate_partial_hash` (src/core/checksum.rs 26-42): digest of
the first `limit` bytes of the file. -/
def calculate_partial_hash (content : Bytes) (limit : Nat) : Bytes :=
  content.take limit

/-- `cli::SparseMode` (`--sparse always|auto|never`). -/
inductive SparseMode
  | always
  | auto
  | never
  deriving DecidableEq, Repr

/-- `cli::TestMode` (hidden `--test-mode delay:ms|speed_limit:bps`). -/
inductive TestMode
  | delay (ms : Nat)
  | speedLimit (bps : Nat)
  | none
  deriving DecidableEq, Repr

/-! ## The per-file transfer engine (`copy_file`, src/commands/copy.rs 417-660)

`copy_file` is modelled in two layers: `copyFilePlan` is the resume decision
(lines 486-564) and `copyFileTrace` is the full observable behaviour of one
call on the non-reflink path, as a list of `FileAction`s.  Read-only hash
computations (which only open files for reading) are folded into the
decision; the trace records the progress callbacks and every
destination-affecting operation. -/

/-- Outcome of the resume decision inside `copy_file`:
`skip` = early return after reporting the full size;
`appendFrom off` = `should_resume` was true: the destination is opened with
`append(true)` and the source is seeked to `off`;
`overwrite` = the destination is opened with `create(true).truncate(true)`. -/
inductive WritePlan
  | skip (reported : Nat)
  | appendFrom (off : Nat)
  | overwrite
  deriving DecidableEq, Repr

/-- The resume decision of `copy_file` (src/commands/copy.rs 486-564),
translated if-for-if.  `hasResume`, `hasStrict`, `hasAppend` are the
`--resume`, `--strict`, `--append` flags; `dstExists` is `dst.exists()`;
`src`/`dst` the two files' contents (so `src.length` is `file_size` and
`dst.length` is `dst_len`); the mtimes are only read in the default branch. -/
def copyFilePlan (hasResume hasStrict hasAppend dstExists : Bool)
    (src dst : Bytes) (srcMtime dstMtime : Nat) : WritePlan :=
  let fileSize := src.length
  if (hasResume || hasAppend || hasStrict) && dstExists then
    let dstLen := dst.length
    if hasStrict then
      -- STRICT: hash check
      if dstLen = fileSize then
        if calculate_hash src = calculate_hash dst then WritePlan.skip fileSize
        else WritePlan.overwrite
      else if dstLen < fileSize then
        if calculate_hash dst = calculate_partial_hash src dstLen then
          WritePlan.appendFrom dstLen
        else WritePlan.overwrite
      else WritePlan.overwrite
    else if hasAppend then
      -- APPEND: size check (ignore mtime)
      if dstLen = fileSize then WritePlan.skip fileSize
      else if dstLen < fileSize then WritePlan.appendFrom dstLen
      else WritePlan.overwrite
    else
      -- DEFAULT: mtime + size
      if srcMtime ≠ dstMtime then WritePlan.overwrite
      else if dstLen = fileSize then WritePlan.skip fileSize
      else if dstLen < fileSize then WritePlan.appendFrom dstLen
      else WritePlan.overwrite
  else
    WritePlan.overwrite

/-- Observable actions of one `copy_file` call. -/
inductive FileAction
  | newFile (size : Nat)
  | progress (n : Nat)
  | openDst (appendFlag truncateFlag : Bool)
  | seekSrcTo (off : Nat)
  | writeChunk (c : Bytes)
  | seekDstFwd (n : Nat)
  | setDstLen (n : Nat)
  | sleep
  | setAttrs
  | verifyHash
  deriving DecidableEq, Repr

/-- The 1 MiB read buffer of `copy_file` (src/commands/copy.rs 573). -/
def bufSize : Nat := 1048576

/-- The successive reads of a file through a buffer of `b + 1` bytes: each
read returns a maximal chunk of at most `b + 1` bytes, and returns an empty
read exactly at end of file. -/
def chunksOf (b : Nat) : Bytes → List Bytes
  | [] => []
  | a :: l => (a :: l).take (b + 1) :: chunksOf b (l.drop b)
  termination_by l => l.length
  decreasing_by simp [List.length_drop]; omega

/-- `TestMode::Delay` write loop (src/commands/copy.rs 576-584): write the
chunk, announce it, sleep. -/
def delayLoop : List Bytes → List FileAction
  | [] => []
  | c :: rest =>
    FileAction.writeChunk c :: FileAction.progress c.length ::
      FileAction.sleep :: delayLoop rest

/-- Body of the `TestMode::SpeedLimit` loop: write the chunk, sleep the
residual of the target duration, announce the chunk. -/
def speedGo : List Bytes → List FileAction
  | [] => []
  | c :: rest =>
    FileAction.writeChunk c :: FileAction.sleep ::
      FileAction.progress c.length :: speedGo rest

/-- `TestMode::SpeedLimit` write loop (src/commands/copy.rs 585-607): the
chunk size is `min bps bufSize`; with `bps = 0` the first read is a read
into an empty slice, returns 0, and the loop ends at once. -/
def speedLoop (bps : Nat) (content : Bytes) : List FileAction :=
  if bps = 0 then [] else speedGo (chunksOf (min bps bufSize - 1) content)

/-- The zero-buffer test of the sparse write loop
(src/commands/copy.rs 617-621). -/
def isZeros (mode : SparseMode) (c : Bytes) : Bool :=
  match mode with
  | SparseMode.always => c.all (fun b => b == 0)
  | SparseMode.auto => decide (4096 ≤ c.length) && c.all (fun b => b == 0)
  | SparseMode.never => false

/-- `TestMode::None` write loop with sparse-hole detection
(src/commands/copy.rs 608-640).  `pos` is the destination stream position
(writes advance it), `pending` the coalesced hole bytes not yet consumed.
A zero buffer only grows `pending`; before a non-zero write any pending hole
is consumed by seeking the destination forward; at end of input a remaining
pending hole extends the destination with `set_len(pos + pending)`. -/
def sparseLoop (mode : SparseMode) : List Bytes → Nat → Nat → List FileAction
  | [], pos, pending =>
    if pending > 0 then [FileAction.setDstLen (pos + pending)] else []
  | c :: rest, pos, pending =>
    if isZeros mode c then
      FileAction.progress c.length :: sparseLoop mode rest pos (pending + c.length)
    else if pending > 0 then
      FileAction.seekDstFwd pending :: FileAction.writeChunk c ::
        FileAction.progress c.length ::
          sparseLoop mode rest (pos + pending + c.length) 0
    else
      FileAction.writeChunk c :: FileAction.progress c.length ::
        sparseLoop mode rest (pos + c.length) 0

/-- The write loop of `copy_file` (src/commands/copy.rs 575-641), selected by
test mode.  `remaining` is the source content after the seek offset,
`startPos` the initial destination stream position (the end of the existing
destination for an append plan, `0` for a truncating open). -/
def loopTrace (sparse : SparseMode) (tm : TestMode) (remaining : Bytes)
    (startPos : Nat) : List FileAction :=
  match tm with
  | TestMode.delay _ => delayLoop (chunksOf (bufSize - 1) remaining)
  | TestMode.speedLimit bps => speedLoop bps remaining
  | TestMode.none => sparseLoop sparse (chunksOf (bufSize - 1) remaining) startPos 0

/-- Attribute preservation and post-copy verification tail of `copy_file`
(src/commands/copy.rs 643-657). -/
def tailTrace (preserve verify : Bool) : List FileAction :=
  (if preserve then [FileAction.setAttrs] else []) ++
    (if verify then [FileAction.verifyHash] else [])

/-- The observable behaviour of one non-reflink `copy_file` call
(src/commands/copy.rs 417-660).  On a skip the function returns right after
reporting `file_size` — before any open, write, attribute copy or
verification.  On an append plan the code reports `start_offset`, opens the
destination in append mode (positioned at its end), and seeks the source;
on an overwrite plan it opens the destination truncating. -/
def copyFileTrace (hasResume hasStrict hasAppend dstExists : Bool)
    (src dst : Bytes) (srcMtime dstMtime : Nat)
    (sparse : SparseMode) (tm : TestMode) (preserve verify : Bool) :
    List FileAction :=
  let fileSize := src.length
  FileAction.newFile fileSize ::
    match copyFilePlan hasResume hasStrict hasAppend dstExists src dst srcMtime dstMtime with
    | WritePlan.skip reported => [FileAction.progress reported]
    | WritePlan.appendFrom off =>
      FileAction.progress off :: FileAction.openDst true false ::
        ((if off > 0 then [FileAction.seekSrcTo off] else []) ++
          (loopTrace sparse tm (src.drop off) off ++ tailTrace preserve verify))
    | WritePlan.overwrite =>
      FileAction.openDst false true ::
        (loopTrace sparse tm src 0 ++ tailTrace preserve verify)

/-- The value a trace action passes to the byte-delta callback. -/
def progressOf : FileAction → Nat
  | FileAction.progress n => n
  | _ => 0

/-- Total number of bytes announced through the byte-delta callback. -/
def progressSum (t : List FileAction) : Nat := (t.map progressOf).sum

/-- Does the action open, write, extend, truncate or retouch the
destination? -/
def modifiesDst : FileAction → Bool
  | FileAction.openDst _ _ => true
  | FileAction.writeChunk _ => true
  | FileAction.seekDstFwd _ => true
  | FileAction.setDstLen _ => true
  | FileAction.setAttrs => true
  | _ => false

/-! ## The spec-side resume table (spec §4.6) -/

/-- The three resume modes of the spec's decision table. -/
inductive SpecMode
  | strictM
  | appendM
  | defaultM
  deriving DecidableEq, Repr

/-- Mode selection: the engine checks `strict` first, then `append`, and
otherwise (with `resume` set) uses the default mtime+size rule. -/
def specMode (hasStrict hasAppend : Bool) : SpecMode :=
  if hasStrict then SpecMode.strictM
  else if hasAppend then SpecMode.appendM
  else SpecMode.defaultM

/-- The resume decision table exactly as the spec states it (spec §4.6 and
claim C1), written from the spec's words: `s`/`d` are the source and
destination sizes, `fullEq` is `hash(S) == hash(D)`, `prefEq` is
`hash_prefix(S, D) == hash(D)`, `mtimeEq` is `sT == dT`. -/
def specResumeTable (m : SpecMode) (s d : Nat)
    (fullEq prefEq mtimeEq : Bool) : WritePlan :=
  match m with
  | SpecMode.strictM =>
    if d = s then (if fullEq then WritePlan.skip s else WritePlan.overwrite)
    else if d < s then (if prefEq then WritePlan.appendFrom d else WritePlan.overwrite)
    else WritePlan.overwrite
  | SpecMode.appendM =>
    if d = s then WritePlan.skip s
    else if d < s then WritePlan.appendFrom d
    else WritePlan.overwrite
  | SpecMode.defaultM =>
    if mtimeEq then
      if d = s then WritePlan.skip s
      else if d < s then WritePlan.appendFrom d
      else WritePlan.overwrite
    else WritePlan.overwrite

/-! ## Helper lemmas about the chunked read model -/

theorem chunksOf_nil (b : Nat) : chunksOf b [] = [] := by
  simp [chunksOf]

theorem chunksOf_cons (b : Nat) (a : Nat) (l : Bytes) :
    chunksOf b (a :: l) = (a :: l).take (b + 1) :: chunksOf b (l.drop b) := by
  rw [chunksOf]

theorem chunksOf_length_sum_aux (b : Nat) :
    ∀ (n : Nat) (l : Bytes), l.length ≤ n →
      ((chunksOf b l).map List.length).sum = l.length := by
  intro n
  induction n with
  | zero =>
    intro l hl
    have : l = [] := by
      cases l with
      | nil => rfl
      | cons a t => simp at hl
    subst this
    simp [chunksOf_nil]
  | succ n ih =>
    intro l hl
    cases l with
    | nil => simp [chunksOf_nil]
    | cons a t =>
      rw [chunksOf_cons]
      simp only [List.map_cons, List.sum_cons]
      rw [ih (t.drop b) (by simp at hl; simp [List.length_drop]; omega)]
      simp [List.length_take, List.length_drop]
      omega

/-- The chunks of a file sum to its size: a read returns 0 bytes only at end
of file. -/
theorem chunksOf_length_sum (b : Nat) (l : Bytes) :
    ((chunksOf b l).map List.length).sum = l.length :=
  chunksOf_length_sum_aux b l.length l le_rfl

theorem chunksOf_flatten_aux (b : Nat) :
    ∀ (n : Nat) (l : Bytes), l.length ≤ n → (chunksOf b l).flatten = l := by
  intro n
  induction n with
  | zero =>
    intro l hl
    have : l = [] := by
      cases l with
      | nil => rfl
      | cons a t => simp at hl
    subst this
    simp [chunksOf_nil]
  | succ n ih =>
    intro l hl
    cases l with
    | nil => simp [chunksOf_nil]
    | cons a t =>
      rw [chunksOf_cons]
      simp only [List.flatten_cons]
      rw [ih (t.drop b) (by simp at hl; simp [List.length_drop]; omega)]
      have : (a :: t).drop (b + 1) = t.drop b := by simp [List.drop_succ_cons]
      calc ((a :: t).take (b + 1)) ++ t.drop b
          = ((a :: t).take (b + 1)) ++ ((a :: t).drop (b + 1)) := by rw [this]
        _ = a :: t := List.take_append_drop _ _

/-- Concatenating the chunks of a file restores the file. -/
theorem chunksOf_flatten (b : Nat) (l : Bytes) :
    (chunksOf b l).flatten = l :=
  chunksOf_flatten_aux b l.length l le_rfl

theorem progressSum_append (s t : List FileAction) :
    progressSum (s ++ t) = progressSum s + progressSum t := by
  simp [progressSum]

theorem delayLoop_progressSum (cs : List Bytes) :
    progressSum (delayLoop cs) = (cs.map List.length).sum := by
  induction cs with
  | nil => simp [delayLoop, progressSum]
  | cons c rest ih =>
    simp [delayLoop, progressSum, progressOf] at ih ⊢
    omega

theorem speedGo_progressSum (cs : List Bytes) :
    progressSum (speedGo cs) = (cs.map List.length).sum := by
  induction cs with
  | nil => simp [speedGo, progressSum]
  | cons c rest ih =>
    simp [speedGo, progressSum, progressOf] at ih ⊢
    omega

theorem sparseLoop_progressSum (mode : SparseMode) (cs : List Bytes) :
    ∀ (pos pending : Nat),
      progressSum (sparseLoop mode cs pos pending) = (cs.map List.length).sum := by
  induction cs with
  | nil =>
    intro pos pending
    by_cases h : pending > 0 <;> simp [sparseLoop, progressSum, progressOf, h]
  | cons c rest ih =>
    intro pos pending
    by_cases hz : isZeros mode c = true
    · have := ih pos (pending + c.length)
      simp [sparseLoop, hz, progressSum, progressOf] at this ⊢
      omega
    · by_cases hp : pending > 0
      · have := ih (pos + pending + c.length) 0
        simp [sparseLoop, hz, hp, progressSum, progressOf] at this ⊢
        omega
      · have := ih (pos + c.length) 0
        simp [sparseLoop, hz, hp, progressSum, progressOf] at this ⊢
        omega

/-- Every write loop except `SpeedLimit(0)` announces exactly the bytes that
remain to be read. -/
theorem loopTrace_progressSum (sparse : SparseMode) (tm : TestMode)
    (remaining : Bytes) (startPos : Nat) (h : tm ≠ TestMode.speedLimit 0) :
    progressSum (loopTrace sparse tm remaining startPos) = remaining.length := by
  match tm with
  | TestMode.delay ms =>
    simp [loopTrace, delayLoop_progressSum, chunksOf_length_sum]
  | TestMode.none =>
    simp [loopTrace, sparseLoop_progressSum, chunksOf_length_sum]
  | TestMode.speedLimit bps =>
    have hb : bps ≠ 0 := by intro hc; exact h (by rw [hc])
    simp [loopTrace, speedLoop, hb, speedGo_progressSum, chunksOf_length_sum]

/-- An append plan is only produced with `off` equal to the destination
length, strictly below the source size. -/
theorem copyFilePlan_appendFrom_lt (hasResume hasStrict hasAppend dstExists : Bool)
    (src dst : Bytes) (srcMtime dstMtime : Nat) (off : Nat)
    (h : copyFilePlan hasResume hasStrict hasAppend dstExists src dst srcMtime dstMtime
        = WritePlan.appendFrom off) :
    off = dst.length ∧ off < src.length := by
  simp only [copyFilePlan] at h
  split_ifs at h <;> simp_all

/-- A skip plan always reports the full source size. -/
theorem copyFilePlan_skip_eq (hasResume hasStrict hasAppend dstExists : Bool)
    (src dst : Bytes) (srcMtime dstMtime : Nat) (reported : Nat)
    (h : copyFilePlan hasResume hasStrict hasAppend dstExists src dst srcMtime dstMtime
        = WritePlan.skip reported) :
    reported = src.length := by
  simp only [copyFilePlan] at h
  split_ifs at h <;> simp_all

theorem openDst_notMem_delayLoop (a b : Bool) (cs : List Bytes) :
    FileAction.openDst a b ∉ delayLoop cs := by
  induction cs with
  | nil => simp [delayLoop]
  | cons c rest ih => simp [delayLoop, ih]

theorem openDst_notMem_speedGo (a b : Bool) (cs : List Bytes) :
    FileAction.openDst a b ∉ speedGo cs := by
  induction cs with
  | nil => simp [speedGo]
  | cons c rest ih => simp [speedGo, ih]

theorem openDst_notMem_sparseLoop (a b : Bool) (mode : SparseMode) (cs : List Bytes) :
    ∀ (pos pending : Nat), FileAction.openDst a b ∉ sparseLoop mode cs pos pending := by
  induction cs with
  | nil =>
    intro pos pending
    by_cases h : pending > 0 <;> simp [sparseLoop, h]
  | cons c rest ih =>
    intro pos pending
    by_cases hz : isZeros mode c = true
    · simp [sparseLoop, hz, ih]
    · by_cases hp : pending > 0 <;> simp [sparseLoop, hz, hp, ih]

theorem openDst_notMem_loopTrace (a b : Bool) (sparse : SparseMode) (tm : TestMode)
    (remaining : Bytes) (startPos : Nat) :
    FileAction.openDst a b ∉ loopTrace sparse tm remaining startPos := by
  match tm with
  | TestMode.delay ms => simpa [loopTrace] using openDst_notMem_delayLoop a b _
  | TestMode.none => simpa [loopTrace] using openDst_notMem_sparseLoop a b sparse _ startPos 0
  | TestMode.speedLimit bps =>
    by_cases h : bps = 0
    · simp [loopTrace, speedLoop, h]
    · simpa [loopTrace, speedLoop, h] using openDst_notMem_speedGo a b _

theorem openDst_notMem_tailTrace (a b : Bool) (preserve verify : Bool) :
    FileAction.openDst a b ∉ tailTrace preserve verify := by
  by_cases hp : preserve <;> by_cases hv : verify <;> simp [tailTrace, hp, hv]

theorem progressSum_tailTrace (preserve verify : Bool) :
    progressSum (tailTrace preserve verify) = 0 := by
  by_cases hp : preserve <;> by_cases hv : verify <;>
    simp [tailTrace, hp, hv, progressSum, progressOf]

/-- **C1.** When the destination exists and one of `resume`/`append`/`strict`
is set, the resume decision of `copy_file` agrees with the spec's per-mode
table (`specResumeTable` is written from the spec's words, with the hash and
mtime comparisons supplied as the booleans the table consumes); moreover the
trace of the call opens the destination in append mode and seeks the source
to the resume offset exactly on an append decision, and opens the
destination truncating on an overwrite decision. -/
theorem c1_resume_decision_follows_spec_table
    (hasResume hasStrict hasAppend : Bool) (src dst : Bytes)
    (srcMtime dstMtime : Nat)
    (hOn : (hasResume || hasAppend || hasStrict) = true) :
    (copyFilePlan hasResume hasStrict hasAppend true src dst srcMtime dstMtime =
      specResumeTable (specMode hasStrict hasAppend) src.length dst.length
        (decide (calculate_hash src = calculate_hash dst))
        (decide (calculate_hash dst = calculate_partial_hash src dst.length))
        (decide (srcMtime = dstMtime)))
    ∧ (∀ (off : Nat) (sparse : SparseMode) (tm : TestMode) (preserve verify : Bool),
        copyFilePlan hasResume hasStrict hasAppend true src dst srcMtime dstMtime =
            WritePlan.appendFrom off →
          FileAction.openDst true false ∈
            copyFileTrace hasResume hasStrict hasAppend true src dst srcMtime dstMtime
              sparse tm preserve verify
          ∧ (0 < off →
            FileAction.seekSrcTo off ∈
              copyFileTrace hasResume hasStrict hasAppend true src dst srcMtime dstMtime
                sparse tm preserve verify)
          ∧ FileAction.openDst false true ∉
            copyFileTrace hasResume hasStrict hasAppend true src dst srcMtime dstMtime
              sparse tm preserve verify)
    ∧ (∀ (sparse : SparseMode) (tm : TestMode) (preserve verify : Bool),
        copyFilePlan hasResume hasStrict hasAppend true src dst srcMtime dstMtime =
            WritePlan.overwrite →
          FileAction.openDst false true ∈
            copyFileTrace hasResume hasStrict hasAppend true src dst srcMtime dstMtime
              sparse tm preserve verify) := by
  refine ⟨?_, ?_, ?_⟩
  · cases hasStrict <;> cases hasAppend <;> cases hasResume <;>
      first
        | exact absurd hOn (by decide)
        | (simp only [copyFilePlan, specResumeTable, specMode, Bool.or_true,
            Bool.true_or, Bool.or_false, Bool.and_self, if_true, Bool.true_and,
            Bool.and_true, decide_eq_true_eq, calculate_hash, calculate_partial_hash] <;>
            (split_ifs <;> first | rfl | contradiction))
  · intro off sparse tm preserve verify h
    refine ⟨?_, ?_, ?_⟩
    · simp [copyFileTrace, h]
    · intro ho
      simp [copyFileTrace, h, ho]
    · simp only [copyFileTrace, h, List.mem_cons, List.mem_append]
      push_neg
      refine ⟨by simp, by simp, by simp, by simp, ?_, ?_⟩
      · exact openDst_notMem_loopTrace false true sparse tm _ off
      · exact openDst_notMem_tailTrace false true preserve verify
  · intro sparse tm preserve verify h
    simp [copyFileTrace, h]

/-- Concrete instantiation of C1 (strict mode, equal sizes, equal hashes:
the table yields a skip). -/
theorem c1_witness :
    copyFilePlan false true false true [2, 3] [2, 3] 0 0 =
      specResumeTable (specMode true false) ([2, 3] : Bytes).length
        ([2, 3] : Bytes).length
        (decide (calculate_hash [2, 3] = calculate_hash [2, 3]))
        (decide (calculate_hash [2, 3] = calculate_partial_hash [2, 3] ([2, 3] : Bytes).length))
        (decide ((0 : Nat) = 0)) :=
  (c1_resume_decision_follows_spec_table false true false [2, 3] [2, 3] 0 0 (by decide)).1

/-- **C3 (counterexample).** Under the hidden test mode `speed_limit:0` the
write loop reads into an empty slice, gets 0 bytes, and stops at once, so a
one-byte source announces 0 bytes instead of 1: the sum of byte-delta
callbacks does not always equal the source size. -/
theorem c3_counterexample :
    ¬ (progressSum (copyFileTrace false false false false [1] [] 0 0
        SparseMode.auto (TestMode.speedLimit 0) false false)
      = ([1] : Bytes).length) := by
  decide

/-- **C3 (amended).** For every non-reflink `copy_file` call whose test mode
is not `SpeedLimit(0)` — i.e. normal copies, `Delay`, and `SpeedLimit` with a
positive limit — the sum of all values passed to the byte-delta callback over
the whole call (the skip report, the pre-announced resume offset, and every
loop buffer including sparse-hole buffers) equals the source size exactly. -/
theorem c3_byte_conservation
    (hasResume hasStrict hasAppend dstExists : Bool) (src dst : Bytes)
    (srcMtime dstMtime : Nat) (sparse : SparseMode) (tm : TestMode)
    (preserve verify : Bool) (h : tm ≠ TestMode.speedLimit 0) :
    progressSum (copyFileTrace hasResume hasStrict hasAppend dstExists src dst
        srcMtime dstMtime sparse tm preserve verify)
      = src.length := by
  unfold copyFileTrace
  cases hplan : copyFilePlan hasResume hasStrict hasAppend dstExists src dst srcMtime dstMtime with
  | skip reported =>
    have := copyFilePlan_skip_eq hasResume hasStrict hasAppend dstExists src dst
      srcMtime dstMtime reported hplan
    simp [progressSum, progressOf, this]
  | appendFrom off =>
    have hoff := copyFilePlan_appendFrom_lt hasResume hasStrict hasAppend dstExists
      src dst srcMtime dstMtime off hplan
    have hloop := loopTrace_progressSum sparse tm (src.drop off) off h
    have htail := progressSum_tailTrace preserve verify
    have hseek : (List.map progressOf
        (if 0 < off then [FileAction.seekSrcTo off] else [])).sum = 0 := by
      by_cases ho : 0 < off <;> simp [ho, progressOf]
    simp only [progressSum, progressOf, List.map_cons, List.sum_cons,
      List.map_append, List.sum_append] at hloop htail hseek ⊢
    simp [hloop, htail, hseek, List.length_drop]
    omega
  | overwrite =>
    have hloop := loopTrace_progressSum sparse tm src 0 h
    have htail := progressSum_tailTrace preserve verify
    simp only [progressSum, progressOf, List.map_cons, List.sum_cons,
      List.map_append, List.sum_append] at hloop htail ⊢
    simp [hloop, htail]

/-- Concrete instantiation of C3 (append-resume in default mode: 2 bytes
pre-announced, 2 read by the loop, 4 in total = the source size). -/
theorem c3_witness :
    progressSum (copyFileTrace true false false true [5, 6, 7, 8] [5, 6] 3 3
        SparseMode.auto TestMode.none false false)
      = ([5, 6, 7, 8] : Bytes).length :=
  c3_byte_conservation true false false true [5, 6, 7, 8] [5, 6] 3 3
    SparseMode.auto TestMode.none false false (by decide)

/-- **C9.** Whenever the resume decision resolves to skip — strict mode with
equal sizes and matching full hashes, append mode with equal sizes, or
default mode with equal mtimes and equal sizes — `copy_file` invokes the
byte-delta callback exactly once with the full source size and returns
success without opening the destination for writing, writing, truncating,
extending or retouching it, and without post-copy verification (the trace is
exactly the new-file report followed by that single callback; the strict
branch reads both files for hashing but modifies nothing). -/
theorem c9_skip_touches_nothing
    (hasResume hasStrict hasAppend : Bool) (src dst : Bytes)
    (srcMtime dstMtime : Nat) (sparse : SparseMode) (tm : TestMode)
    (preserve verify : Bool)
    (hskip :
        (hasStrict = true ∧ dst.length = src.length
          ∧ calculate_hash src = calculate_hash dst)
      ∨ (hasStrict = false ∧ hasAppend = true ∧ dst.length = src.length)
      ∨ (hasStrict = false ∧ hasAppend = false ∧ hasResume = true
          ∧ srcMtime = dstMtime ∧ dst.length = src.length)) :
    copyFileTrace hasResume hasStrict hasAppend true src dst srcMtime dstMtime
        sparse tm preserve verify
      = [FileAction.newFile src.length, FileAction.progress src.length]
    ∧ (copyFileTrace hasResume hasStrict hasAppend true src dst srcMtime dstMtime
        sparse tm preserve verify).filter modifiesDst = []
    ∧ FileAction.verifyHash ∉
        copyFileTrace hasResume hasStrict hasAppend true src dst srcMtime dstMtime
          sparse tm preserve verify := by
  have hplan : copyFilePlan hasResume hasStrict hasAppend true src dst srcMtime dstMtime
      = WritePlan.skip src.length := by
    rcases hskip with ⟨hs, hlen, hhash⟩ | ⟨hs, ha, hlen⟩ | ⟨hs, ha, hr, hmt, hlen⟩
    · subst hs
      simp [copyFilePlan, hlen, hhash]
    · subst hs; subst ha
      simp [copyFilePlan, hlen]
    · subst hs; subst ha; subst hr
      simp [copyFilePlan, hlen, hmt]
  refine ⟨?_, ?_, ?_⟩ <;> simp [copyFileTrace, hplan, modifiesDst]

/-- Concrete instantiation of C9 (default mode, equal mtimes and sizes). -/
theorem c9_witness :
    copyFileTrace true false false true [9, 9] [9, 8] 4 4
        SparseMode.always TestMode.none true true
      = [FileAction.newFile 2, FileAction.progress 2] :=
  (c9_skip_touches_nothing true false false [9, 9] [9, 8] 4 4
    SparseMode.always TestMode.none true true
    (Or.inr (Or.inr ⟨rfl, rfl, rfl, rfl, rfl⟩))).1

/-! ## Destination semantics of the sparse write loop (claim C4)

`flattenLoop` interprets a loop trace against the destination: a write
materialises its bytes at the current position, a forward seek leaves a
filesystem hole (read back as zeros), and the final `set_len` extends the
file with zeros up to the requested length.  `pos0` is the position at which
the loop started writing (0 for a truncating open, the old end of file for an
append-mode open). -/

/-- Destination bytes produced by one trace action at the current position:
a write materialises its bytes, a forward seek leaves a hole read back as
zeros, `set_len` extends the file with zeros to the requested length. -/
def flattenStep (pos0 : Nat) (acc : Bytes) : FileAction → Bytes
  | FileAction.writeChunk c => acc ++ c
  | FileAction.seekDstFwd n => acc ++ List.replicate n 0
  | FileAction.setDstLen n => acc ++ List.replicate (n - (pos0 + acc.length)) 0
  | _ => acc

/-- Interpret the destination bytes produced from position `pos0` on, given
the bytes `acc` already produced by earlier actions of the trace. -/
def flattenLoop (pos0 : Nat) : List FileAction → Bytes → Bytes
  | [], acc => acc
  | a :: rest, acc => flattenLoop pos0 rest (flattenStep pos0 acc a)

/-- Every forward seek issued by the sparse loop is immediately followed by a
write: pending holes are consumed exactly before the next non-zero write. -/
def seeksFollowedByWrite : List FileAction → Bool
  | [] => true
  | FileAction.seekDstFwd _ :: rest =>
    (match rest with
     | FileAction.writeChunk _ :: _ => true
     | _ => false) && seeksFollowedByWrite rest
  | _ :: rest => seeksFollowedByWrite rest

theorem isZeros_all_zero (mode : SparseMode) (c : Bytes)
    (h : isZeros mode c = true) : c.all (fun b => b == 0) = true := by
  cases mode <;> simp [isZeros] at h ⊢ <;> first | exact h | exact h.2

theorem all_zero_eq_replicate (c : Bytes) (h : c.all (fun b => b == 0) = true) :
    c = List.replicate c.length 0 := by
  apply List.eq_replicate_of_mem
  intro b hb
  have := List.all_eq_true.mp h b hb
  simpa using this

theorem seeksFollowedByWrite_sparseLoop (mode : SparseMode) (cs : List Bytes) :
    ∀ (pos pending : Nat),
      seeksFollowedByWrite (sparseLoop mode cs pos pending) = true := by
  induction cs with
  | nil =>
    intro pos pending
    by_cases h : pending > 0 <;> simp [sparseLoop, h, seeksFollowedByWrite]
  | cons c rest ih =>
    intro pos pending
    by_cases hz : isZeros mode c = true
    · simp [sparseLoop, hz, seeksFollowedByWrite, ih]
    · by_cases hp : pending > 0 <;>
        simp [sparseLoop, hz, hp, seeksFollowedByWrite, ih]

theorem flattenLoop_sparseLoop (mode : SparseMode) (pos0 : Nat) :
    ∀ (cs : List Bytes) (pending : Nat) (acc : Bytes),
      (∀ c ∈ cs, isZeros mode c = true → c.all (fun b => b == 0) = true) →
      flattenLoop pos0 (sparseLoop mode cs (pos0 + acc.length) pending) acc
        = acc ++ List.replicate pending 0 ++ cs.flatten := by
  intro cs
  induction cs with
  | nil =>
    intro pending acc hz
    by_cases h : pending > 0
    · rw [sparseLoop, if_pos h]
      simp only [flattenLoop, flattenStep]
      have harith : pos0 + acc.length + pending - (pos0 + acc.length) = pending := by
        omega
      simp [harith]
    · have : pending = 0 := by omega
      simp [sparseLoop, h, flattenLoop, this]
  | cons c rest ih =>
    intro pending acc hz
    have hzr : ∀ x ∈ rest, isZeros mode x = true → x.all (fun b => b == 0) = true :=
      fun x hx => hz x (List.mem_cons_of_mem c hx)
    by_cases hc : isZeros mode c = true
    · have hcz : c = List.replicate c.length 0 :=
        all_zero_eq_replicate c (hz c (List.mem_cons_self c rest) hc)
      rw [sparseLoop, if_pos hc]
      simp only [flattenLoop, flattenStep]
      rw [ih (pending + c.length) acc hzr]
      conv_rhs => rw [List.flatten_cons, hcz]
      rw [List.replicate_add pending c.length 0]
      simp only [List.append_assoc]
    · by_cases hp : pending > 0
      · rw [sparseLoop, if_neg hc, if_pos hp]
        simp only [flattenLoop, flattenStep]
        have hlen : pos0 + acc.length + pending + c.length
            = pos0 + ((acc ++ List.replicate pending 0) ++ c).length := by
          simp; omega
        rw [hlen, ih 0 ((acc ++ List.replicate pending 0) ++ c) hzr]
        simp [List.append_assoc]
      · have hp0 : pending = 0 := by omega
        subst hp0
        rw [sparseLoop, if_neg hc, if_neg hp]
        simp only [flattenLoop, flattenStep]
        have hlen : pos0 + acc.length + c.length = pos0 + (acc ++ c).length := by
          simp; omega
        rw [hlen, ih 0 (acc ++ c) hzr]
        simp [List.append_assoc]

/-- **C4.** In the normal (non-test-mode) write loop: (1) a read buffer
becomes a pending hole iff sparse mode is `always` and the buffer is all
zeros, or sparse mode is `auto` and the buffer is all zeros and at least
4096 bytes long; (2) pending holes are coalesced and consumed by a forward
seek issued immediately before the next non-zero write; (3) the bytes the
destination holds from the loop's start position on equal the source bytes
read by the loop (holes read back as zeros, and a trailing hole is
materialised by `set_len(position + pending)`), so the destination's logical
size equals the source's. -/
theorem c4_sparse_holes (mode : SparseMode) (b : Nat) (l : Bytes) (pos0 : Nat) :
    (∀ c : Bytes, isZeros mode c = true ↔
        ((mode = SparseMode.always ∧ c.all (fun x => x == 0) = true)
        ∨ (mode = SparseMode.auto ∧ c.all (fun x => x == 0) = true
            ∧ 4096 ≤ c.length)))
    ∧ seeksFollowedByWrite (sparseLoop mode (chunksOf b l) pos0 0) = true
    ∧ flattenLoop pos0 (sparseLoop mode (chunksOf b l) pos0 0) [] = l
    ∧ pos0 + (flattenLoop pos0 (sparseLoop mode (chunksOf b l) pos0 0) []).length
        = pos0 + l.length := by
  have hflat : flattenLoop pos0 (sparseLoop mode (chunksOf b l) pos0 0) [] = l := by
    have hmain := flattenLoop_sparseLoop mode pos0 (chunksOf b l) 0 []
      (fun c _ hc => isZeros_all_zero mode c hc)
    simpa [chunksOf_flatten] using hmain
  refine ⟨?_, seeksFollowedByWrite_sparseLoop mode _ pos0 0, hflat, by rw [hflat]⟩
  intro c
  cases mode <;> (simp [isZeros]; try tauto)

/-! ## The move engine (`move_path`, src/commands/move.rs 33-222)

The filesystem is the list of its files; directories are implicit in the
path structure, so removing an already-emptied directory does not change the
file list (and `move.rs` ignores errors of those removals anyway).  The
engine's behaviour is a trace of `MoveAction`s interpreted against this
filesystem; `rename` relocates the subtree, the Transfer Engine copy places
the source subtree under the resolved destination base. -/

/-- A file of the modelled filesystem. -/
structure FsEntry where
  path : FsPath
  content : Bytes
  deriving DecidableEq, Repr

/-- The filesystem: the list of its files. -/
abbrev Fs := List FsEntry

/-- Relocate one entry of the subtree at `src` under `dst`. -/
def relocate (src dst : FsPath) (e : FsEntry) : FsEntry :=
  ⟨dst ++ e.path.drop src.length, e.content⟩

/-- `fs::rename(src, dst)` on success: the subtree at `src` moves under
`dst`. -/
def renameTree (src dst : FsPath) (fs : Fs) : Fs :=
  fs.map (fun e => if src.isPrefixOf e.path then relocate src dst e else e)

/-- A Transfer Engine copy of `src` to the resolved target base `dst`. -/
def copyTree (src dst : FsPath) (fs : Fs) : Fs :=
  fs ++ (fs.filter (fun e => src.isPrefixOf e.path)).map (relocate src dst)

/-- `fs::remove_file p`. -/
def removeFileFs (p : FsPath) (fs : Fs) : Fs :=
  fs.filter (fun e => decide (e.path ≠ p))

/-- `fs::remove_dir_all p`: post-order removal of the whole subtree. -/
def removeTreeFs (p : FsPath) (fs : Fs) : Fs :=
  fs.filter (fun e => !(p.isPrefixOf e.path))

/-- The files below `p`, as (relative path, content) pairs. -/
def subtree (p : FsPath) (fs : Fs) : List (FsPath × Bytes) :=
  fs.filterMap (fun e =>
    if p.isPrefixOf e.path then some (e.path.drop p.length, e.content) else none)

/-- The actions the move engine can perform. -/
inductive MoveAction
  | rename (src dst : FsPath)
  | copyTreeA (src dst : FsPath)
  | unlinkFile (p : FsPath)
  | removeDirAllA (p : FsPath)
  | rmdirIgnore (p : FsPath)
  deriving DecidableEq, Repr

/-- Errors surfaced by `move_path`. -/
inductive MvError
  | targetExists (p : FsPath)
  | ioError (code : Int)
  | invalidInput (p : FsPath)
  | sourceNotFound (p : FsPath)
  deriving DecidableEq, Repr

/-- `libc::EXDEV`, the cross-device error code (18 on Linux). -/
def EXDEV : Int := 18

/-- One directory entry yielded by `traversal::walk`. -/
structure WalkEntry where
  path : FsPath
  isDir : Bool
  deriving DecidableEq, Repr

/-- The comparator of `remove_directory_contents` (src/commands/move.rs
203-208): sort by component count, deepest first.  Rust `sort_by` is stable,
as is insertion sort. -/
def deeperFirst (a b : WalkEntry) : Prop := b.path.length ≤ a.path.length

instance : DecidableRel deeperFirst := fun a b => Nat.decLe b.path.length a.path.length

instance : IsTotal WalkEntry deeperFirst :=
  ⟨fun a b => Nat.le_total b.path.length a.path.length⟩

instance : IsTrans WalkEntry deeperFirst :=
  ⟨fun _ _ _ hab hbc => le_trans hbc hab⟩

/-- The removal performed for one walked entry (src/commands/move.rs
210-219): a file is unlinked (errors propagate), a directory is removed with
`remove_dir`, errors ignored. -/
def entryAction (e : WalkEntry) : MoveAction :=
  if e.isDir then MoveAction.rmdirIgnore e.path else MoveAction.unlinkFile e.path

/-- `remove_directory_contents` (src/commands/move.rs 195-222): the walked
entries (post-order, excludes already pruned by `traversal::walk`), sorted by
component count descending, each removed in turn. -/
def remove_directory_contents (entries : List WalkEntry) : List MoveAction :=
  (List.insertionSort deeperFirst entries).map entryAction

/-- The file branch of `move_path` (src/commands/move.rs 51-97): exclusion
guard, `TargetExists` unless `force`, dry-run, force-unlink of the existing
destination, then rename; on failure with `EXDEV` fall back to Transfer
Engine copy plus source unlink, otherwise propagate the error.  `renameErr`
is the outcome of `fs::rename` (`none` = success). -/
def movePathFile (excludes : List (String → Bool)) (dstExists force dryRun : Bool)
    (renameErr : Option Int) (src dst : FsPath) :
    Except MvError (List MoveAction) :=
  if is_excluded (renderPath src) excludes then Except.ok []
  else if dstExists && !force then Except.error (MvError.targetExists dst)
  else if dryRun then Except.ok []
  else
    let pre := if dstExists && force then [MoveAction.unlinkFile dst] else []
    match renameErr with
    | Option.none => Except.ok (pre ++ [MoveAction.rename src dst])
    | Option.some c =>
      if c = EXDEV then
        Except.ok (pre ++ [MoveAction.copyTreeA src dst, MoveAction.unlinkFile src])
      else Except.error (MvError.ioError c)

/-- The recursive-directory branch of `move_path` (src/commands/move.rs
98-182): exclusion guard; with a non-empty exclude list (or dry-run) rename
is bypassed entirely in favour of copy-with-excludes, post-order removal of
the walked source entries, and a final error-ignoring removal of the source
root; otherwise rename first, falling back on `EXDEV` to copy plus
`remove_dir_all`, and propagating any other rename error.  `entries` is the
output of `traversal::walk(src, true, true, 0, excludes)`. -/
def movePathDir (excludes : List (String → Bool)) (dryRun : Bool)
    (renameErr : Option Int) (src dst : FsPath) (entries : List WalkEntry) :
    Except MvError (List MoveAction) :=
  if is_excluded (renderPath src) excludes then Except.ok []
  else if !excludes.isEmpty || dryRun then
    if dryRun then Except.ok []
    else
      Except.ok (MoveAction.copyTreeA src dst ::
        (remove_directory_contents entries ++ [MoveAction.rmdirIgnore src]))
  else
    match renameErr with
    | Option.none => Except.ok [MoveAction.rename src dst]
    | Option.some c =>
      if c = EXDEV then
        Except.ok [MoveAction.copyTreeA src dst, MoveAction.removeDirAllA src]
      else Except.error (MvError.ioError c)

/-- Interpret one move action on the filesystem.  Removing an
already-emptied directory leaves the file list unchanged (and its errors are
ignored by the engine). -/
def applyMoveAction (fs : Fs) : MoveAction → Fs
  | MoveAction.rename src dst => renameTree src dst fs
  | MoveAction.copyTreeA src dst => copyTree src dst fs
  | MoveAction.unlinkFile p => removeFileFs p fs
  | MoveAction.removeDirAllA p => removeTreeFs p fs
  | MoveAction.rmdirIgnore _ => fs

/-- Run a move trace on the filesystem. -/
def applyMoveActions (fs : Fs) (t : List MoveAction) : Fs :=
  t.foldl applyMoveAction fs

theorem isPrefixOf_append_self (p r : FsPath) : p.isPrefixOf (p ++ r) = true := by
  rw [List.isPrefixOf_iff_prefix]
  exact List.prefix_append p r

theorem isPrefixOf_append_false (src dst r : FsPath)
    (h1 : src.isPrefixOf dst = false) (h2 : dst.isPrefixOf src = false) :
    src.isPrefixOf (dst ++ r) = false := by
  by_contra hx
  rw [Bool.not_eq_false, List.isPrefixOf_iff_prefix] at hx
  rcases Nat.le_total src.length dst.length with hle | hle
  · have : src <+: dst :=
      List.prefix_of_prefix_length_le hx (List.prefix_append dst r) hle
    rw [← List.isPrefixOf_iff_prefix] at this
    simp [this] at h1
  · have : dst <+: src :=
      List.prefix_of_prefix_length_le (List.prefix_append dst r) hx hle
    rw [← List.isPrefixOf_iff_prefix] at this
    simp [this] at h2

theorem subtree_append (p : FsPath) (xs ys : Fs) :
    subtree p (xs ++ ys) = subtree p xs ++ subtree p ys := by
  simp [subtree]

theorem subtree_eq_nil (p : FsPath) (fs : Fs)
    (h : ∀ e ∈ fs, p.isPrefixOf e.path = false) : subtree p fs = [] := by
  apply List.filterMap_eq_nil_iff.mpr
  intro e he
  simp [subtree, h e he]

theorem subtree_map_relocate (src dst : FsPath) (L : List FsEntry) :
    subtree dst (L.map (relocate src dst))
      = L.map (fun e => (e.path.drop src.length, e.content)) := by
  induction L with
  | nil => simp [subtree]
  | cons e rest ih =>
    simp only [subtree, List.map_cons, List.filterMap_cons] at ih ⊢
    simp only [relocate, isPrefixOf_append_self, if_true, List.drop_left]
    rw [ih]

theorem subtree_filter_form (p : FsPath) (fs : Fs) :
    subtree p fs = (fs.filter (fun e => p.isPrefixOf e.path)).map
      (fun e => (e.path.drop p.length, e.content)) := by
  induction fs with
  | nil => simp [subtree]
  | cons e rest ih =>
    by_cases h : p.isPrefixOf e.path = true
    · simp only [subtree, List.filterMap_cons, List.filter_cons, h, if_true,
        List.map_cons] at ih ⊢
      rw [ih]
    · have hb : p.isPrefixOf e.path = false := by
        cases hx : p.isPrefixOf e.path
        · rfl
        · exact absurd hx h
      simp only [subtree, List.filterMap_cons, List.filter_cons, hb,
        Bool.false_eq_true, if_false] at ih ⊢
      exact ih

theorem subtree_relocated (src dst : FsPath) (fs : Fs) :
    subtree dst ((fs.filter (fun e => src.isPrefixOf e.path)).map (relocate src dst))
      = subtree src fs := by
  rw [subtree_map_relocate, subtree_filter_form]

/-- **C2.** On a move whose rename fails with the cross-device code `EXDEV`,
the engine falls back to Transfer Engine copy followed by source deletion
(unlink for a file, recursive removal for a directory): afterwards the
subtree at the destination equals the original subtree at the source and the
source is gone.  A rename failure with any other code is propagated without
fallback.  The hypotheses say that neither path is a prefix of the other and
that the destination base is initially vacant. -/
theorem c2_exdev_fallback (src dst : FsPath) (fs : Fs) (c : Int)
    (entries : List WalkEntry)
    (h1 : src.isPrefixOf dst = false) (h2 : dst.isPrefixOf src = false)
    (h3 : ∀ e ∈ fs, dst.isPrefixOf e.path = false)
    (hc : c ≠ EXDEV) :
    (∃ t, movePathFile [] false false false (Option.some EXDEV) src dst = Except.ok t
      ∧ subtree dst (applyMoveActions fs t) = subtree src fs
      ∧ ∀ e ∈ applyMoveActions fs t, e.path ≠ src)
    ∧ (∃ t, movePathDir [] false (Option.some EXDEV) src dst entries = Except.ok t
      ∧ subtree dst (applyMoveActions fs t) = subtree src fs
      ∧ subtree src (applyMoveActions fs t) = [])
    ∧ movePathFile [] false false false (Option.some c) src dst
        = Except.error (MvError.ioError c)
    ∧ movePathDir [] false (Option.some c) src dst entries
        = Except.error (MvError.ioError c) := by
  have hreloc_pref : ∀ x ∈ (fs.filter (fun e => src.isPrefixOf e.path)).map (relocate src dst),
      dst.isPrefixOf x.path = true := by
    intro x hx
    rcases List.mem_map.mp hx with ⟨e, _, rfl⟩
    exact isPrefixOf_append_self dst _
  refine ⟨?_, ?_, ?_, ?_⟩
  · refine ⟨[MoveAction.copyTreeA src dst, MoveAction.unlinkFile src], ?_, ?_, ?_⟩
    · simp [movePathFile, is_excluded, EXDEV]
    · have hresult : applyMoveActions fs
          [MoveAction.copyTreeA src dst, MoveAction.unlinkFile src]
          = (fs.filter (fun e => decide (e.path ≠ src)))
            ++ ((fs.filter (fun e => src.isPrefixOf e.path)).map (relocate src dst)).filter
                (fun e => decide (e.path ≠ src)) := by
        simp [applyMoveActions, applyMoveAction, copyTree, removeFileFs,
          List.filter_append]
      rw [hresult, subtree_append]
      have hfs : subtree dst (fs.filter (fun e => decide (e.path ≠ src))) = [] := by
        apply subtree_eq_nil
        intro e he
        exact h3 e (List.mem_of_mem_filter he)
      have hkeep : ((fs.filter (fun e => src.isPrefixOf e.path)).map
            (relocate src dst)).filter (fun e => decide (e.path ≠ src))
          = (fs.filter (fun e => src.isPrefixOf e.path)).map (relocate src dst) := by
        apply List.filter_eq_self.mpr
        intro x hx
        rcases List.mem_map.mp hx with ⟨e, _, rfl⟩
        simp only [relocate, decide_eq_true_eq]
        intro hex
        have : dst.isPrefixOf src = true := by
          rw [← hex]
          exact isPrefixOf_append_self dst _
        simp [this] at h2
      rw [hfs, hkeep, subtree_relocated]
      simp
    · intro e he
      have hmem : e ∈ (fs ++ (fs.filter (fun x => src.isPrefixOf x.path)).map
          (relocate src dst)).filter (fun x => decide (x.path ≠ src)) := by
        simpa [applyMoveActions, applyMoveAction, copyTree, removeFileFs] using he
      have := (List.mem_filter.mp hmem).2
      simpa using this
  · refine ⟨[MoveAction.copyTreeA src dst, MoveAction.removeDirAllA src], ?_, ?_, ?_⟩
    · simp [movePathDir, is_excluded, EXDEV]
    · have hresult : applyMoveActions fs
          [MoveAction.copyTreeA src dst, MoveAction.removeDirAllA src]
          = (fs.filter (fun e => !(src.isPrefixOf e.path)))
            ++ ((fs.filter (fun e => src.isPrefixOf e.path)).map (relocate src dst)).filter
                (fun e => !(src.isPrefixOf e.path)) := by
        simp [applyMoveActions, applyMoveAction, copyTree, removeTreeFs,
          List.filter_append]
      rw [hresult, subtree_append]
      have hfs : subtree dst (fs.filter (fun e => !(src.isPrefixOf e.path))) = [] := by
        apply subtree_eq_nil
        intro e he
        exact h3 e (List.mem_of_mem_filter he)
      have hkeep : ((fs.filter (fun e => src.isPrefixOf e.path)).map
            (relocate src dst)).filter (fun e => !(src.isPrefixOf e.path))
          = (fs.filter (fun e => src.isPrefixOf e.path)).map (relocate src dst) := by
        apply List.filter_eq_self.mpr
        intro x hx
        rcases List.mem_map.mp hx with ⟨e, _, rfl⟩
        simp [relocate, isPrefixOf_append_false src dst _ h1 h2]
      rw [hfs, hkeep, subtree_relocated]
      simp
    · apply subtree_eq_nil
      intro e he
      have hmem : e ∈ (fs ++ (fs.filter (fun x => src.isPrefixOf x.path)).map
          (relocate src dst)).filter (fun x => !(src.isPrefixOf x.path)) := by
        simpa [applyMoveActions, applyMoveAction, copyTree, removeTreeFs] using he
      have := (List.mem_filter.mp hmem).2
      simpa using this
  · have : ¬ (c = EXDEV) := hc
    simp [movePathFile, is_excluded, this]
  · have : ¬ (c = EXDEV) := hc
    simp [movePathDir, is_excluded, this]

/-- Concrete instantiation of C2 (one file moved across devices). -/
theorem c2_witness :
    ∃ t, movePathFile [] false false false (Option.some EXDEV) ["a"] ["b"]
        = Except.ok t
      ∧ subtree ["b"] (applyMoveActions [⟨["a"], [1, 2]⟩] t)
          = subtree ["a"] [⟨["a"], [1, 2]⟩]
      ∧ ∀ e ∈ applyMoveActions [⟨["a"], [1, 2]⟩] t, e.path ≠ ["a"] :=
  (c2_exdev_fallback ["a"] ["b"] [⟨["a"], [1, 2]⟩] 5 []
    (by decide) (by decide) (by decide) (by decide)).1

/-- Is the action a rename attempt? -/
def isRenameA : MoveAction → Bool
  | MoveAction.rename _ _ => true
  | _ => false

/-- The component count of an unlinked file, for order of deletion. -/
def depthIfUnlink : MoveAction → Option Nat
  | MoveAction.unlinkFile p => some p.length
  | _ => none

/-- Component counts of the unlinked files, in trace order. -/
def unlinkDepths (t : List MoveAction) : List Nat := t.filterMap depthIfUnlink

theorem unlinkDepths_map_entryAction (l : List WalkEntry) :
    l.filterMap (depthIfUnlink ∘ entryAction)
      = (l.filter (fun e => !e.isDir)).map (fun e => e.path.length) := by
  induction l with
  | nil => simp
  | cons e rest ih =>
    by_cases h : e.isDir = true
    · simp [entryAction, h, depthIfUnlink, ih, Function.comp]
    · have hb : e.isDir = false := by
        cases hx : e.isDir
        · rfl
        · exact absurd hx h
      simp [entryAction, hb, depthIfUnlink, ih, Function.comp]

/-- **C5.** A recursive directory move with a non-empty exclude list never
attempts a rename: the engine copies with excludes applied, then removes the
walked (hence non-excluded) source entries deepest-first — files by
error-propagating unlink, in an order in which component counts never
increase, directories by error-ignoring `remove_dir` — and finally attempts
an error-ignoring removal of the source root. -/
theorem c5_move_with_excludes
    (excludes : List (String → Bool)) (src dst : FsPath)
    (entries : List WalkEntry) (renameErr : Option Int)
    (hex : excludes ≠ [])
    (hroot : is_excluded (renderPath src) excludes = false)
    (hents : ∀ e ∈ entries, is_excluded (renderPath e.path) excludes = false) :
    ∃ t, movePathDir excludes false renameErr src dst entries = Except.ok t
      ∧ (∀ a ∈ t, isRenameA a = false)
      ∧ t.head? = some (MoveAction.copyTreeA src dst)
      ∧ List.Pairwise (fun m n => n ≤ m) (unlinkDepths t)
      ∧ (∀ p, MoveAction.unlinkFile p ∈ t →
          ∃ e ∈ entries, e.path = p ∧ e.isDir = false
            ∧ is_excluded (renderPath p) excludes = false)
      ∧ (∀ e ∈ entries, e.isDir = false → MoveAction.unlinkFile e.path ∈ t)
      ∧ (∀ e ∈ entries, e.isDir = true → MoveAction.rmdirIgnore e.path ∈ t)
      ∧ t.getLast? = some (MoveAction.rmdirIgnore src) := by
  have hne : excludes.isEmpty = false := by
    cases excludes with
    | nil => exact absurd rfl hex
    | cons a l => rfl
  have hperm : ∀ e : WalkEntry,
      e ∈ List.insertionSort deeperFirst entries ↔ e ∈ entries :=
    fun e => (List.perm_insertionSort deeperFirst entries).mem_iff
  refine ⟨MoveAction.copyTreeA src dst ::
    (remove_directory_contents entries ++ [MoveAction.rmdirIgnore src]),
    ?_, ?_, ?_, ?_, ?_, ?_, ?_, ?_⟩
  · simp [movePathDir, hroot, hne]
  · intro a ha
    rcases List.mem_cons.mp ha with rfl | ha
    · rfl
    · rcases List.mem_append.mp ha with ha | ha
      · rcases List.mem_map.mp ha with ⟨e, _, rfl⟩
        by_cases h : e.isDir = true <;> simp [entryAction, h, isRenameA]
      · rcases List.mem_singleton.mp ha with rfl
        rfl
  · rfl
  · have hdep : unlinkDepths (MoveAction.copyTreeA src dst ::
        (remove_directory_contents entries ++ [MoveAction.rmdirIgnore src]))
        = ((List.insertionSort deeperFirst entries).filter
            (fun e => !e.isDir)).map (fun e => e.path.length) := by
      simp [unlinkDepths, List.filterMap_cons, List.filterMap_append,
        depthIfUnlink, remove_directory_contents, unlinkDepths_map_entryAction]
    rw [hdep, List.pairwise_map]
    exact (List.sorted_insertionSort deeperFirst entries).filter _
  · intro p hp
    rcases List.mem_cons.mp hp with heq | hp
    · exact absurd heq (by simp)
    rcases List.mem_append.mp hp with hp | hp
    · rcases List.mem_map.mp hp with ⟨e, hes, heq⟩
      by_cases h : e.isDir = true
      · simp [entryAction, h] at heq
      · have hb : e.isDir = false := by
          cases hx : e.isDir
          · rfl
          · exact absurd hx h
        simp only [entryAction, hb, Bool.false_eq_true, if_false] at heq
        have hpe : e.path = p := by
          cases heq
          rfl
        refine ⟨e, (hperm e).mp hes, hpe, hb, ?_⟩
        rw [← hpe]
        exact hents e ((hperm e).mp hes)
    · rcases List.mem_singleton.mp hp with heq
      exact absurd heq (by simp)
  · intro e he hfile
    refine List.mem_cons_of_mem _ (List.mem_append_left _ ?_)
    refine List.mem_map.mpr ⟨e, (hperm e).mpr he, ?_⟩
    simp [entryAction, hfile]
  · intro e he hdir
    refine List.mem_cons_of_mem _ (List.mem_append_left _ ?_)
    refine List.mem_map.mpr ⟨e, (hperm e).mpr he, ?_⟩
    simp [entryAction, hdir]
  · rw [← List.cons_append, List.getLast?_concat]

/-- Concrete instantiation of C5 (a two-entry walk: one file below the
root, then the root directory). -/
theorem c5_witness :
    ∃ t, movePathDir [fun s => s == "keep"] false Option.none
        ["d"] ["e"] [⟨["d", "f"], false⟩, ⟨["d"], true⟩] = Except.ok t
      ∧ (∀ a ∈ t, isRenameA a = false)
      ∧ t.head? = some (MoveAction.copyTreeA ["d"] ["e"])
      ∧ List.Pairwise (fun m n => n ≤ m) (unlinkDepths t)
      ∧ (∀ p, MoveAction.unlinkFile p ∈ t →
          ∃ e ∈ ([⟨["d", "f"], false⟩, ⟨["d"], true⟩] : List WalkEntry),
            e.path = p ∧ e.isDir = false
              ∧ is_excluded (renderPath p) [fun s => s == "keep"] = false)
      ∧ (∀ e ∈ ([⟨["d", "f"], false⟩, ⟨["d"], true⟩] : List WalkEntry),
          e.isDir = false → MoveAction.unlinkFile e.path ∈ t)
      ∧ (∀ e ∈ ([⟨["d", "f"], false⟩, ⟨["d"], true⟩] : List WalkEntry),
          e.isDir = true → MoveAction.rmdirIgnore e.path ∈ t)
      ∧ t.getLast? = some (MoveAction.rmdirIgnore ["d"]) :=
  c5_move_with_excludes [fun s => s == "keep"] ["d"] ["e"]
    [⟨["d", "f"], false⟩, ⟨["d"], true⟩] Option.none
    (by simp)
    (by rfl)
    (by
      intro e he
      rcases List.mem_cons.mp he with rfl | he
      · rfl
      · rcases List.mem_singleton.mp he with rfl
        rfl)

/-! ## Renderer construction and cancellation (src/main.rs, src/ui) -/

/-- The two renderer variants behind `CopyProgress`
(src/ui/progress.rs 16-29): the full-screen bordered TUI box and the inline
3-line display. -/
inductive RendererKind
  | tuiBox
  | inline
  deriving DecidableEq, Repr

/-- Case-insensitive test against `"plain"`
(`CONFIG.progress.style.eq_ignore_ascii_case("plain")`). -/
def styleIsPlain (s : String) : Bool := s.toLower == "plain"

/-- `is_plain_mode_enabled` (src/main.rs 19-21): true iff the `tui` flag is
set or the configured progress style is `"plain"`. -/
def is_plain_mode_enabled (tuiFlag : Bool) (style : String) : Bool :=
  tuiFlag || styleIsPlain style

/-- `CopyProgress::new` (src/ui/progress.rs 21-29): with `tui_mode` true it
boxes the inline renderer, otherwise the full-screen TUI renderer. -/
def copyProgressNew (tuiMode : Bool) : RendererKind :=
  if tuiMode then RendererKind.inline else RendererKind.tuiBox

/-- The renderer the orchestrator constructs for copy, move and remove
commands: `CopyProgress::new(total, is_plain_mode_enabled(args), ..)`
(src/main.rs 142-146, 258-262, 369-373). -/
def orchestratorRenderer (tuiFlag : Bool) (style : String) : RendererKind :=
  copyProgressNew (is_plain_mode_enabled tuiFlag style)

/-- **C7 (counterexample).** With the `tui` flag set (and a non-plain
configured style) the orchestrator constructs the inline renderer, not the
full-screen TUI renderer the claim requires. -/
theorem c7_counterexample :
    orchestratorRenderer true "fancy" = RendererKind.inline
    ∧ RendererKind.inline ≠ RendererKind.tuiBox := by
  constructor
  · rfl
  · intro h
    cases h

/-- **C7 (amended).** The orchestrator constructs the full-screen TUI
renderer iff the `tui` flag is NOT set and the configured progress style is
not `"plain"` (ASCII case-insensitively); otherwise — `tui` flag set (the
flag's help text reads "Enable inline TUI mode") or style `"plain"` — it
constructs the inline renderer. -/
theorem c7_renderer_choice (tuiFlag : Bool) (style : String) :
    (orchestratorRenderer tuiFlag style = RendererKind.tuiBox
      ↔ (tuiFlag = false ∧ styleIsPlain style = false))
    ∧ (orchestratorRenderer tuiFlag style = RendererKind.inline
      ↔ (tuiFlag = true ∨ styleIsPlain style = true)) := by
  cases tuiFlag <;>
    cases hs : styleIsPlain style <;>
      simp [orchestratorRenderer, is_plain_mode_enabled, copyProgressNew, hs]

/-- Actions of a cancellation path. -/
inductive CancelAction
  | finishRenderer
  | exitProcess (code : Nat)
  deriving DecidableEq, Repr

/-- The cancellation task spawned by `handle_copy_command` and
`handle_move_command` (src/main.rs 170-176 and 287-292): when the interrupt
signal is received it calls `finish()` on the renderer and terminates the
process with `std::process::exit(0)`. -/
def ctrlCTask (signalReceived : Bool) : List CancelAction :=
  if signalReceived then
    [CancelAction.finishRenderer, CancelAction.exitProcess 0]
  else []

/-- The Ctrl+C key polling inside `TuiProgress::redraw`
(src/ui/tui.rs 83-107): unless already finished, a polled Ctrl+C key event
makes the renderer finish and the process exit with code 130. -/
def tuiRedrawCtrlC (finished keyCtrlC : Bool) : List CancelAction :=
  if finished then []
  else if keyCtrlC then
    [CancelAction.finishRenderer, CancelAction.exitProcess 130]
  else []

/-- **C6 (counterexample).** The cancellation handler installed by the copy
and move orchestrators finishes the renderer but exits with code 0 — it
never exits with code 130. -/
theorem c6_counterexample :
    ctrlCTask true = [CancelAction.finishRenderer, CancelAction.exitProcess 0]
    ∧ CancelAction.exitProcess 130 ∉ ctrlCTask true := by
  constructor
  · rfl
  · intro h
    simp [ctrlCTask] at h

/-- **C6 (amended).** On the interrupt signal the cancellation handler calls
`finish()` on the renderer and then terminates the process with exit code 0;
exit code 130 is produced only by the full-screen TUI renderer's redraw when
it polls a Ctrl+C key event in raw mode (where it also finishes first). -/
theorem c6_cancellation_exit_codes :
    ctrlCTask true = [CancelAction.finishRenderer, CancelAction.exitProcess 0]
    ∧ tuiRedrawCtrlC false true
        = [CancelAction.finishRenderer, CancelAction.exitProcess 130]
    ∧ ctrlCTask false = [] := by
  refine ⟨rfl, rfl, rfl⟩

/-! ## The remove engine (`remove.rs`) and engine entry dispatch -/

/-- What a path names on the filesystem. -/
inductive PathKind
  | file
  | dir
  | missing
  deriving DecidableEq, Repr

/-- `FileToRemove` (src/commands/remove.rs 13-17) and the entries of the
removal walk. -/
structure RmEntry where
  path : String
  isDir : Bool
  size : Nat
  deriving DecidableEq, Repr

/-- The `bail!` errors of the remove engine (src/commands/remove.rs). -/
inductive RmError
  | isDirectoryNoRecursive (p : String)
  | directoryNotEmpty (p : String)
  | noSuchFileOrDirectory (p : String)
  deriving DecidableEq, Repr

/-- The filesystem environment the remove engine consults: what each path
names, file sizes, directory emptiness, and the entries yielded by
`traversal::walk(path, true, true, 0, excludes)` (post-order, excludes
pruned). -/
structure RmWorld where
  kind : String → PathKind
  size : String → Nat
  dirEmpty : String → Bool
  walkE : String → List RmEntry

/-- `check_removes_sync` (src/commands/remove.rs 20-94): classify each
top-level path; excluded paths are skipped; files are collected; directories
need `recursive` or `dir_only` (with `dir_only` a non-empty directory is
fatal, otherwise the recursive walk is collected); a missing path is fatal
unless `force`, in which case it is silently skipped. -/
def check_removes_sync (w : RmWorld) (recursive dirOnly force : Bool)
    (excludes : List (String → Bool)) :
    List String → Except RmError (List RmEntry)
  | [] => Except.ok []
  | p :: rest =>
    if is_excluded p excludes then
      check_removes_sync w recursive dirOnly force excludes rest
    else
      match w.kind p with
      | PathKind.file =>
        (check_removes_sync w recursive dirOnly force excludes rest).map
          (fun l => ⟨p, false, w.size p⟩ :: l)
      | PathKind.dir =>
        if !recursive && !dirOnly then
          Except.error (RmError.isDirectoryNoRecursive p)
        else if dirOnly then
          if !(w.dirEmpty p) then Except.error (RmError.directoryNotEmpty p)
          else (check_removes_sync w recursive dirOnly force excludes rest).map
            (fun l => ⟨p, true, 0⟩ :: l)
        else (check_removes_sync w recursive dirOnly force excludes rest).map
          (fun l => w.walkE p ++ l)
      | PathKind.missing =>
        if !force then Except.error (RmError.noSuchFileOrDirectory p)
        else check_removes_sync w recursive dirOnly force excludes rest

/-- Removal actions. -/
inductive RmAction
  | unlink (p : String)
  | rmdir (p : String)
  deriving DecidableEq, Repr

/-- Component count of a rendered path (`components().count()`). -/
def strDepth (s : String) : Nat := (s.splitOn "/").length

/-- Deepest-first comparator of the removal walk
(src/commands/remove.rs 239-244). -/
def deeperFirstR (a b : RmEntry) : Prop := strDepth b.path ≤ strDepth a.path

instance : DecidableRel deeperFirstR :=
  fun a b => Nat.decLe (strDepth b.path) (strDepth a.path)

instance : IsTotal RmEntry deeperFirstR :=
  ⟨fun a b => Nat.le_total (strDepth b.path) (strDepth a.path)⟩

instance : IsTrans RmEntry deeperFirstR :=
  ⟨fun _ _ _ hab hbc => le_trans hbc hab⟩

/-- The per-entry removal of the directory branch
(src/commands/remove.rs 247-329): dry-run only prints, a file is unlinked, a
directory removed with `remove_dir`. -/
def rmEntryActions (dryRun : Bool) (e : RmEntry) : List RmAction :=
  if dryRun then []
  else if e.isDir then [RmAction.rmdir e.path] else [RmAction.unlink e.path]

/-- The directory branch of `remove_path` (src/commands/remove.rs 213-329):
walk post-order, sort deepest first, confirm each entry interactively when
`-i` without `-f`, then remove. -/
def removeDirEntries (w : RmWorld) (interactive force dryRun : Bool)
    (confirm : String → Bool) (p : String) : List RmAction :=
  ((List.insertionSort deeperFirstR (w.walkE p)).filter
      (fun e => !(interactive && !force) || confirm e.path)).flatMap
    (rmEntryActions dryRun)

/-- `remove_path` (src/commands/remove.rs 186-382): exclusion guard,
interactive confirmation of the root, then the directory branch (when the
path is a directory and `recursive` or `dir_only` is set), the file branch,
and otherwise a fatal "No such file or directory" — reached for every
missing path, with or without `force`.  `confirm` answers the interactive
prompts. -/
def remove_path (w : RmWorld) (recursive dirOnly interactive force dryRun : Bool)
    (excludes : List (String → Bool)) (confirm : String → Bool) (p : String) :
    Except RmError (List RmAction) :=
  if is_excluded p excludes then Except.ok []
  else if interactive && !force && !(confirm p) then Except.ok []
  else if decide (w.kind p = PathKind.dir) && (recursive || dirOnly) then
    Except.ok (removeDirEntries w interactive force dryRun confirm p)
  else if decide (w.kind p = PathKind.file) then
    if dryRun then Except.ok []
    else Except.ok [RmAction.unlink p]
  else Except.error (RmError.noSuchFileOrDirectory p)

/-- Sequential per-path removal loop of `remove_paths`
(src/commands/remove.rs 422-435): the first error aborts. -/
def removePathsGo (w : RmWorld) (recursive dirOnly interactive force dryRun : Bool)
    (excludes : List (String → Bool)) (confirm : String → Bool) :
    List String → Except RmError (List RmAction)
  | [] => Except.ok []
  | p :: rest => do
    let t ← remove_path w recursive dirOnly interactive force dryRun excludes confirm p
    let ts ← removePathsGo w recursive dirOnly interactive force dryRun excludes confirm rest
    Except.ok (t ++ ts)

/-- `remove_paths` (src/commands/remove.rs 404-438): pre-flight
`check_removes`, then `remove_path` on every given path — including paths
the pre-flight skipped. -/
def remove_paths (w : RmWorld) (recursive dirOnly interactive force dryRun : Bool)
    (excludes : List (String → Bool)) (confirm : String → Bool)
    (paths : List String) : Except RmError (List RmAction) :=
  match check_removes_sync w recursive dirOnly force excludes paths with
  | Except.error e => Except.error e
  | Except.ok _ =>
    removePathsGo w recursive dirOnly interactive force dryRun excludes confirm paths

/-- A world in which `"ghost"` (and everything else) is missing. -/
def ghostWorld : RmWorld :=
  ⟨fun _ => PathKind.missing, fun _ => 0, fun _ => true, fun _ => []⟩

/-- **C8.** A remove naming a missing path fails without `force` — but it
also fails WITH `force`: the pre-flight `check_removes_sync` silently skips
the missing path as the claim describes, yet `remove_paths` then calls
`remove_path` on every given path and its final branch bails with "No such
file or directory" unconditionally, so the operation errors either way. -/
theorem c8_force_missing_still_fails :
    check_removes_sync ghostWorld false false true [] ["ghost"] = Except.ok []
    ∧ remove_paths ghostWorld false false false true false [] (fun _ => false) ["ghost"]
        = Except.error (RmError.noSuchFileOrDirectory "ghost")
    ∧ remove_paths ghostWorld false false false false false [] (fun _ => false) ["ghost"]
        = Except.error (RmError.noSuchFileOrDirectory "ghost") :=
  ⟨rfl, rfl, rfl⟩

/-- Errors of `copy_path` relevant to its entry dispatch. -/
inductive CpError
  | sourceNotFound (p : String)
  | invalidInput (p : String)
  deriving DecidableEq, Repr

/-- The entry dispatch of `copy_path` (src/commands/copy.rs 140-380): the
root exclusion check precedes every filesystem access; then a file source is
transferred, a directory source requires `recursive`, and anything else is
`SourceNotFound`.  The file- and directory-branch bodies (the former
modelled in detail by `copyFileTrace`) are supplied as traces. -/
def copy_path_model (excludes : List (String → Bool)) (src : String)
    (kind : PathKind) (recursive : Bool)
    (fileTrace dirTrace : List FileAction) : Except CpError (List FileAction) :=
  if is_excluded src excludes then Except.ok []
  else
    match kind with
    | PathKind.file => Except.ok fileTrace
    | PathKind.dir =>
      if recursive then Except.ok dirTrace
      else Except.error (CpError.invalidInput src)
    | PathKind.missing => Except.error (CpError.sourceNotFound src)

/-- The entry dispatch of `move_path` (src/commands/move.rs 47-190): the
root exclusion check precedes every filesystem access; then the file branch,
the recursive-directory branch, `InvalidInput` for a directory without
`-r`, and `SourceNotFound` otherwise. -/
def move_path_model (excludes : List (String → Bool)) (kind : PathKind)
    (recursive dstExists force dryRun : Bool) (renameErr : Option Int)
    (src dst : FsPath) (entries : List WalkEntry) :
    Except MvError (List MoveAction) :=
  if is_excluded (renderPath src) excludes then Except.ok []
  else
    match kind with
    | PathKind.file => movePathFile excludes dstExists force dryRun renameErr src dst
    | PathKind.dir =>
      if recursive then movePathDir excludes dryRun renameErr src dst entries
      else Except.error (MvError.invalidInput src)
    | PathKind.missing => Except.error (MvError.sourceNotFound src)

/-- **C10.** If the root source path matches an exclude regex, all three
engine entry points return success immediately with an empty action trace —
independently of what the path names (in particular a missing excluded
source succeeds); whereas a non-excluded missing source is a
`SourceNotFound` (copy and move) or "No such file or directory" (remove)
error. -/
theorem c10_excluded_root_short_circuits
    (excludes : List (String → Bool)) (srcP : FsPath)
    (h : is_excluded (renderPath srcP) excludes = true) :
    (∀ (kind : PathKind) (recursive : Bool) (fileTrace dirTrace : List FileAction),
        copy_path_model excludes (renderPath srcP) kind recursive fileTrace dirTrace
          = Except.ok [])
    ∧ (∀ (kind : PathKind) (recursive dstExists force dryRun : Bool)
        (renameErr : Option Int) (dst : FsPath) (entries : List WalkEntry),
        move_path_model excludes kind recursive dstExists force dryRun renameErr
            srcP dst entries
          = Except.ok [])
    ∧ (∀ (w : RmWorld) (recursive dirOnly interactive force dryRun : Bool)
        (confirm : String → Bool),
        remove_path w recursive dirOnly interactive force dryRun excludes confirm
            (renderPath srcP)
          = Except.ok [])
    ∧ (∀ (q : String) (recursive : Bool) (fileTrace dirTrace : List FileAction),
        is_excluded q excludes = false →
        copy_path_model excludes q PathKind.missing recursive fileTrace dirTrace
          = Except.error (CpError.sourceNotFound q))
    ∧ (∀ (q : FsPath) (recursive dstExists force dryRun : Bool)
        (renameErr : Option Int) (dst : FsPath) (entries : List WalkEntry),
        is_excluded (renderPath q) excludes = false →
        move_path_model excludes PathKind.missing recursive dstExists force dryRun
            renameErr q dst entries
          = Except.error (MvError.sourceNotFound q))
    ∧ (∀ (w : RmWorld) (q : String) (recursive dirOnly force dryRun : Bool)
        (confirm : String → Bool),
        is_excluded q excludes = false → w.kind q = PathKind.missing →
        remove_path w recursive dirOnly false force dryRun excludes confirm q
          = Except.error (RmError.noSuchFileOrDirectory q)) := by
  refine ⟨?_, ?_, ?_, ?_, ?_, ?_⟩
  · intro kind recursive fileTrace dirTrace
    simp [copy_path_model, h]
  · intro kind recursive dstExists force dryRun renameErr dst entries
    simp [move_path_model, h]
  · intro w recursive dirOnly interactive force dryRun confirm
    simp [remove_path, h]
  · intro q recursive fileTrace dirTrace hq
    simp [copy_path_model, hq]
  · intro q recursive dstExists force dryRun renameErr dst entries hq
    simp [move_path_model, hq]
  · intro w q recursive dirOnly force dryRun confirm hq hk
    simp [remove_path, hq, hk]

/-- Concrete instantiation of C10 (the excluded source `"gone"` does not
exist, yet copy returns success with no actions). -/
theorem c10_witness :
    copy_path_model [fun s => s == "gone"] (renderPath ["gone"])
        PathKind.missing false [] [] = Except.ok [] :=
  (c10_excluded_root_short_circuits [fun s => s == "gone"] ["gone"] rfl).1
    PathKind.missing false [] []

end Bcmr
